import Mathlib

/-!
# AirGong schedule engine — verification development

Shallow embedding of the schedule engine of
`src/lib/ApplicationControl/ApplicationControl.cpp` together with the
message shapes of `src/lib/MessageBroker/MessageDefinitions.h`.

Machine integers are modelled as `Nat` (with an explicit `% 256` where the
C code converts `int` to `u8`); the NVS key-value store is modelled as a
count plus a list of optional fixed-size records, where `none` stands for
an absent key or a record whose stored length differs from the expected
record size.
-/

namespace AirGong

/-- `MAX_SCHEDULES` from ApplicationControl.cpp. -/
def MAX_SCHEDULES : Nat := 20

/-- `schedule_entry_t` from ApplicationControl.cpp:
`{active, hour (u8), minute (u8), song_index (u16), triggered, last_checked_min (u8)}`. -/
structure schedule_entry_t where
  active : Bool
  hour : Nat
  minute : Nat
  song_index : Nat
  triggered : Bool
  last_checked_min : Nat
deriving DecidableEq, Repr

/-- The value every slot gets in `appcontrol_init`:
inactive, zero fields, `last_checked_min = 255`. -/
def emptyEntry : schedule_entry_t :=
  { active := false, hour := 0, minute := 0, song_index := 0,
    triggered := false, last_checked_min := 255 }

/-- A freshly armed entry, as written by the Add handler and by
`prv_load_schedules_from_flash`: `triggered = false`, `last_checked_min = 255`. -/
def armedEntry (h m si : Nat) : schedule_entry_t :=
  { active := true, hour := h, minute := m, song_index := si,
    triggered := false, last_checked_min := 255 }

/-- The fields of `struct tm` the engine reads (`tm_hour`, `tm_min`) plus
`tm_wday`, which is present in the delivered broken-down time but never read. -/
structure TmData where
  tm_hour : Nat
  tm_min : Nat
  tm_wday : Nat
deriving DecidableEq, Repr

/-- The packed storage record written by `prv_save_schedules_to_flash`:
`{hour (u8), minute (u8), song_index (u16), original_id (int, always a slot index)}`. -/
structure StorageRecord where
  hour : Nat
  minute : Nat
  song_index : Nat
  original_id : Nat
deriving DecidableEq, Repr

/-- The NVS namespace as the engine uses it: the `sched_cnt` integer key and
the `sched_<i>` record keys. `records.getD i none = none` models a key that is
absent or whose stored length differs from `sizeof(storage_data)`. -/
structure FlashStore where
  sched_cnt : Int
  records : List (Option StorageRecord)
deriving DecidableEq, Repr

/-- `preferences.getBytes` on key `sched_<i>`: the record, or `none` when the
key is missing or the stored length is wrong. -/
def storeGet (store : FlashStore) (i : Nat) : Option StorageRecord :=
  store.records.getD i none

/-- `schedule_info_t` from MessageDefinitions.h. -/
structure schedule_info_t where
  schedule_id : Nat
  hour : Nat
  minute : Nat
  song_index : Nat
deriving DecidableEq, Repr

/-- Messages the engine subscribes to (MessageIDs 0101, 0400–0404).
`addSchedule` carries the weekday mask the console computes; the engine-side
struct `msg_schedule_add_t` has no such field, so the handler never reads it.
MSG_0003 (logging control) only toggles a serial-print flag and is omitted. -/
inductive InMsg where
  | timeResponse (time_valid : Bool) (timeinfo : TmData)
  | addSchedule (hour minute song_index weekday_mask : Nat)
  | removeSchedule (schedule_id : Int)
  | listSchedules
  | clearSchedules
  | setEnabled (enabled : Bool)
deriving DecidableEq, Repr

/-- Messages the engine publishes: MSG_0100 (time request), MSG_0302 (play),
MSG_0405 (schedule response), MSG_0406 (schedule list). -/
inductive OutMsg where
  | timeRequest
  | play (song_index : Nat)
  | scheduleResponse (success : Bool) (schedule_id : Int)
  | scheduleList (count : Nat) (schedules : List schedule_info_t)
deriving DecidableEq, Repr

/-- The engine's static state: `scheduling_enabled`, the `schedules` array
(always of length `MAX_SCHEDULES`), `current_time`, `time_valid`, and the
NVS store the `preferences` handle reads and writes. -/
structure EngineState where
  scheduling_enabled : Bool
  schedules : List schedule_entry_t
  current_time : TmData
  time_valid : Bool
  store : FlashStore
deriving DecidableEq, Repr

/-- The free-slot linear scan used by the Add handler and by the load fallback:
index of the first entry with `active = false`. -/
def findFreeAux : Nat → List schedule_entry_t → Option Nat
  | _, [] => none
  | i, e :: rest => if e.active then findFreeAux (i + 1) rest else some i

def findFree (ss : List schedule_entry_t) : Option Nat :=
  findFreeAux 0 ss

/-- One iteration of the loop in `prv_check_schedules` for one entry:
reset `triggered` on a minute change, then fire (emitting the song index)
when hour and minute match and `triggered` is still false. -/
def checkEntry (current_hour current_min : Nat) (e : schedule_entry_t) :
    schedule_entry_t × Option Nat :=
  if e.active = false then (e, none)
  else
    let e1 := if e.last_checked_min ≠ current_min then
        { e with last_checked_min := current_min, triggered := false }
      else e
    if e1.hour = current_hour ∧ e1.minute = current_min ∧ e1.triggered = false then
      ({ e1 with triggered := true }, some e1.song_index)
    else (e1, none)

/-- The slot loop of `prv_check_schedules`: updated entries plus the song
indices fired, in slot order. -/
def checkSchedulesList (h m : Nat) : List schedule_entry_t →
    List schedule_entry_t × List Nat
  | [] => ([], [])
  | e :: rest =>
    let r := checkEntry h m e
    let rs := checkSchedulesList h m rest
    (r.1 :: rs.1, r.2.toList ++ rs.2)

/-- `prv_check_schedules`: reads `tm_hour` and `tm_min` into `u8` locals
(hence `% 256`) and walks the schedule array. -/
def prv_check_schedules (t : TmData) (ss : List schedule_entry_t) :
    List schedule_entry_t × List Nat :=
  checkSchedulesList (t.tm_hour % 256) (t.tm_min % 256) ss

/-- The record-collecting loop of `prv_save_schedules_to_flash`: one record per
active slot, in slot order, `original_id` = the slot index. -/
def collectRecords : Nat → List schedule_entry_t → List StorageRecord
  | _, [] => []
  | i, e :: rest =>
    if e.active then
      { hour := e.hour, minute := e.minute, song_index := e.song_index,
        original_id := i } :: collectRecords (i + 1) rest
    else collectRecords (i + 1) rest

/-- `prv_save_schedules_to_flash`: writes the active count to `sched_cnt` and
each active entry's record to `sched_0 .. sched_(k-1)`; keys beyond the new
count keep whatever they held before. -/
def prv_save_schedules_to_flash (ss : List schedule_entry_t)
    (store : FlashStore) : FlashStore :=
  let recs := collectRecords 0 ss
  { sched_cnt := (recs.length : Int),
    records := recs.map some ++ store.records.drop recs.length }

/-- One iteration of the load loop for one read record: a record with a wrong
stored length (`none`) is skipped; otherwise restore to `original_id` unless it
is out of range or occupied, in which case fall back to the first free slot
(skipping the record when the array is full). -/
def loadOne (ss : List schedule_entry_t) : Option StorageRecord →
    List schedule_entry_t
  | none => ss
  | some rec =>
    let target : Option Nat :=
      if MAX_SCHEDULES ≤ rec.original_id ∨
          (ss.getD rec.original_id emptyEntry).active = true then
        findFree ss
      else some rec.original_id
    match target with
    | some t => ss.set t (armedEntry rec.hour rec.minute rec.song_index)
    | none => ss

/-- The load loop over a list of read records. -/
def loadRecords : List (Option StorageRecord) → List schedule_entry_t →
    List schedule_entry_t
  | [], ss => ss
  | r :: rs, ss => loadRecords rs (loadOne ss r)

/-- `prv_load_schedules_from_flash`: reads `sched_cnt` (default 0) and, when
positive, keys `sched_0` up to `min(count, MAX_SCHEDULES) - 1`. -/
def prv_load_schedules_from_flash (store : FlashStore)
    (ss : List schedule_entry_t) : List schedule_entry_t :=
  if 0 < store.sched_cnt then
    loadRecords ((List.range (min store.sched_cnt.toNat MAX_SCHEDULES)).map
      (storeGet store)) ss
  else ss

/-- The listing loop of the MSG_0402 handler: identity, hour, minute, song
index of every active slot in ascending slot order. -/
def listActive : Nat → List schedule_entry_t → List schedule_info_t
  | _, [] => []
  | i, e :: rest =>
    if e.active then
      { schedule_id := i, hour := e.hour, minute := e.minute,
        song_index := e.song_index } :: listActive (i + 1) rest
    else listActive (i + 1) rest

/-- `appcontrol_init`: zero the array (every slot `emptyEntry`), then load
from flash; `scheduling_enabled` starts true, `current_time` zeroed,
`time_valid` false. -/
def appcontrol_init (store : FlashStore) : EngineState :=
  { scheduling_enabled := true,
    schedules := prv_load_schedules_from_flash store
      (List.replicate MAX_SCHEDULES emptyEntry),
    current_time := { tm_hour := 0, tm_min := 0, tm_wday := 0 },
    time_valid := false,
    store := store }

/-- `appcontrol_run`: when scheduling is enabled, publish a MSG_0100 time
request; when disabled, return immediately publishing nothing. -/
def appcontrol_run (s : EngineState) : EngineState × List OutMsg :=
  if s.scheduling_enabled then (s, [OutMsg.timeRequest]) else (s, [])

/-- `prv_message_handler`: the engine's reaction to one delivered message,
returning the new state and the messages it publishes (in publish order). -/
def prv_message_handler (msg : InMsg) (s : EngineState) :
    EngineState × List OutMsg :=
  match msg with
  | .timeResponse valid t =>
    if valid then
      let r := prv_check_schedules t s.schedules
      ({ s with
          time_valid := true
          current_time := t
          schedules := r.1 },
        r.2.map OutMsg.play)
    else
      ({ s with time_valid := false }, [])
  | .addSchedule h m si _w =>
    match findFree s.schedules with
    | some slot =>
      let ss := s.schedules.set slot (armedEntry h m si)
      ({ s with
          schedules := ss
          store := prv_save_schedules_to_flash ss s.store },
        [OutMsg.scheduleResponse true (slot : Int)])
    | none => (s, [OutMsg.scheduleResponse false (-1)])
  | .removeSchedule id =>
    if 0 ≤ id ∧ id < (MAX_SCHEDULES : Int) then
      let slot := id.toNat
      let ss := s.schedules.set slot
        { s.schedules.getD slot emptyEntry with active := false }
      ({ s with
          schedules := ss
          store := prv_save_schedules_to_flash ss s.store },
        [OutMsg.scheduleResponse true id])
    else (s, [OutMsg.scheduleResponse false (-1)])
  | .listSchedules =>
    let infos := listActive 0 s.schedules
    (s, [OutMsg.scheduleList infos.length infos])
  | .clearSchedules =>
    let ss := s.schedules.map (fun e => { e with active := false })
    ({ s with
        schedules := ss
        store := prv_save_schedules_to_flash ss s.store },
      [OutMsg.scheduleResponse true (-1)])
  | .setEnabled b =>
    ({ s with scheduling_enabled := b }, [OutMsg.scheduleResponse true (-1)])

/-- Delivering a sequence of messages, keeping only the final state. -/
def runMsgs (msgs : List InMsg) (s : EngineState) : EngineState :=
  msgs.foldl (fun st m => (prv_message_handler m st).1) s

/-- A store with no saved schedules, as on first boot. -/
def emptyStore : FlashStore := { sched_cnt := 0, records := [] }

/-!
## General lemmas about the engine's loops
-/

theorem findFreeAux_eq_none_of_all_active (ss : List schedule_entry_t) :
    ∀ i, (∀ e ∈ ss, e.active = true) → findFreeAux i ss = none := by
  induction ss with
  | nil => intro i _; rfl
  | cons e rest ih =>
    intro i h
    have he : e.active = true := h e (List.mem_cons_self e rest)
    simp only [findFreeAux, he, if_true]
    exact ih (i + 1) fun x hx => h x (List.mem_cons_of_mem e hx)

theorem listActive_length_of_all_active (ss : List schedule_entry_t) :
    ∀ i, (∀ e ∈ ss, e.active = true) → (listActive i ss).length = ss.length := by
  induction ss with
  | nil => intro i _; rfl
  | cons e rest ih =>
    intro i h
    have he : e.active = true := h e (List.mem_cons_self e rest)
    simp only [listActive, he, if_true, List.length_cons]
    rw [ih (i + 1) fun x hx => h x (List.mem_cons_of_mem e hx)]

theorem collectRecords_eq_nil_iff (ss : List schedule_entry_t) :
    ∀ i, collectRecords i ss = [] ↔ ∀ e ∈ ss, e.active = false := by
  induction ss with
  | nil => intro i; simp [collectRecords]
  | cons e rest ih =>
    intro i
    by_cases he : e.active = true
    · simp [collectRecords, he]
    · have he' : e.active = false := by
        cases hb : e.active
        · rfl
        · exact absurd hb he
      simp only [collectRecords, he', if_neg, Bool.false_eq_true, if_false]
      rw [ih (i + 1)]
      constructor
      · intro h x hx
        rcases List.mem_cons.mp hx with h1 | h2
        · rw [h1]; exact he'
        · exact h x h2
      · intro h x hx
        exact h x (List.mem_cons_of_mem e hx)

theorem loadOne_length (ss : List schedule_entry_t) (r : Option StorageRecord) :
    (loadOne ss r).length = ss.length := by
  cases r with
  | none => rfl
  | some rec =>
    simp only [loadOne]
    cases htarget : (if MAX_SCHEDULES ≤ rec.original_id ∨
        (ss.getD rec.original_id emptyEntry).active = true then
      findFree ss else some rec.original_id) with
    | none => rfl
    | some t => simp

theorem loadRecords_length (rs : List (Option StorageRecord)) :
    ∀ ss, (loadRecords rs ss).length = ss.length := by
  induction rs with
  | nil => intro ss; rfl
  | cons r rest ih =>
    intro ss
    simp only [loadRecords]
    rw [ih, loadOne_length]

theorem getD_mem_or_default {α : Type} (l : List α) :
    ∀ i d, l.getD i d ∈ l ∨ l.getD i d = d := by
  induction l with
  | nil => intro i d; right; cases i <;> rfl
  | cons a t ih =>
    intro i d
    cases i with
    | zero => left; exact List.mem_cons_self a t
    | succ n =>
      rw [List.getD_cons_succ]
      rcases ih n d with h | h
      · left; exact List.mem_cons_of_mem a h
      · right; exact h

theorem checkEntry_fst_fields (h m : Nat) (e : schedule_entry_t) :
    (checkEntry h m e).1.active = e.active ∧
    (checkEntry h m e).1.hour = e.hour ∧
    (checkEntry h m e).1.minute = e.minute ∧
    (checkEntry h m e).1.song_index = e.song_index := by
  unfold checkEntry
  by_cases ha : e.active = false
  · simp [ha]
  · by_cases hl : e.last_checked_min = m
    · by_cases hc : e.hour = h ∧ e.minute = m ∧ e.triggered = false
      · simp [ha, hl, hc]
      · simp [ha, hl, hc]
    · by_cases hc : e.hour = h ∧ e.minute = m
      · simp [ha, hl, hc]
      · simp [ha, hl, hc]

theorem checkEntry_triggered_last (h m : Nat) (e : schedule_entry_t)
    (hact : e.active = true) :
    (checkEntry h m e).1.triggered = true →
    (checkEntry h m e).1.last_checked_min = m := by
  unfold checkEntry
  have ha : ¬(e.active = false) := by simp [hact]
  · by_cases hl : e.last_checked_min = m
    · by_cases hc : e.hour = h ∧ e.minute = m ∧ e.triggered = false
      · simp [ha, hl, hc]
      · simp [ha, hl, hc]
    · by_cases hc : e.hour = h ∧ e.minute = m
      · simp [ha, hl, hc]
      · simp [ha, hl, hc]

theorem mem_checkSchedulesList (h m : Nat) (ss : List schedule_entry_t) :
    ∀ e' ∈ (checkSchedulesList h m ss).1, ∃ e ∈ ss, e' = (checkEntry h m e).1 := by
  induction ss with
  | nil => intro e' he'; simp [checkSchedulesList] at he'
  | cons e rest ih =>
    intro e' he'
    simp only [checkSchedulesList] at he'
    rcases List.mem_cons.mp he' with h1 | h2
    · exact ⟨e, List.mem_cons_self e rest, h1⟩
    · rcases ih e' h2 with ⟨x, hx, hex⟩
      exact ⟨x, List.mem_cons_of_mem e hx, hex⟩

theorem mem_loadOne (ss : List schedule_entry_t) (r : Option StorageRecord) :
    ∀ e ∈ loadOne ss r, e ∈ ss ∨
      ∃ rec, r = some rec ∧
        e = armedEntry rec.hour rec.minute rec.song_index := by
  intro e he
  cases r with
  | none => left; exact he
  | some rec =>
    simp only [loadOne] at he
    cases htarget : (if MAX_SCHEDULES ≤ rec.original_id ∨
        (ss.getD rec.original_id emptyEntry).active = true then
      findFree ss else some rec.original_id) with
    | none => rw [htarget] at he; left; exact he
    | some t =>
      rw [htarget] at he
      rcases List.mem_or_eq_of_mem_set he with h1 | h2
      · left; exact h1
      · right; exact ⟨rec, rfl, h2⟩

theorem mem_loadRecords (rs : List (Option StorageRecord)) :
    ∀ ss, ∀ e ∈ loadRecords rs ss, e ∈ ss ∨
      ∃ rec, some rec ∈ rs ∧
        e = armedEntry rec.hour rec.minute rec.song_index := by
  induction rs with
  | nil => intro ss e he; left; exact he
  | cons r rest ih =>
    intro ss e he
    simp only [loadRecords] at he
    rcases ih (loadOne ss r) e he with h1 | h2
    · rcases mem_loadOne ss r e h1 with g1 | ⟨rec, hr, hg⟩
      · left; exact g1
      · right
        refine ⟨rec, ?_, hg⟩
        rw [hr]
        exact List.mem_cons_self _ _
    · rcases h2 with ⟨rec, hmem, hg⟩
      right
      exact ⟨rec, List.mem_cons_of_mem r hmem, hg⟩

theorem mem_init_schedules (store : FlashStore) :
    ∀ e ∈ (appcontrol_init store).schedules, e = emptyEntry ∨
      ∃ rec, some rec ∈ store.records ∧
        e = armedEntry rec.hour rec.minute rec.song_index := by
  intro e he
  simp only [appcontrol_init, prv_load_schedules_from_flash] at he
  by_cases hc : 0 < store.sched_cnt
  · rw [if_pos hc] at he
    rcases mem_loadRecords _ _ e he with h1 | ⟨rec, hmem, hg⟩
    · left; exact List.eq_of_mem_replicate h1
    · rcases List.mem_map.mp hmem with ⟨i, _, hsg⟩
      right
      refine ⟨rec, ?_, hg⟩
      rcases getD_mem_or_default store.records i none with hm | hd
      · have : store.records.getD i none = some rec := hsg
        rw [this] at hm
        exact hm
      · have : store.records.getD i none = some rec := hsg
        rw [hd] at this
        exact absurd this (by simp)
  · rw [if_neg hc] at he
    left; exact List.eq_of_mem_replicate he

/-!
## Claim theorems
-/

/-- **C10** — Delivering a time-sample response whose validity flag is false
changes no schedule entry, performs no evaluation, writes nothing to storage,
and publishes no message (only the `time_valid` flag is recorded). -/
theorem claim_invalid_time_is_frame (s : EngineState) (t : TmData) :
    (prv_message_handler (.timeResponse false t) s).1.schedules = s.schedules ∧
    (prv_message_handler (.timeResponse false t) s).1.store = s.store ∧
    (prv_message_handler (.timeResponse false t) s).1.current_time =
      s.current_time ∧
    (prv_message_handler (.timeResponse false t) s).2 = [] :=
  ⟨rfl, rfl, rfl, rfl⟩

/-- **C9** — The weekday never influences the engine: two time samples with
equal hour and minute but different `tm_wday` evaluate to the same schedule
array and the same emitted song indices, and the Add handler's result does not
depend on the weekday mask the console computes (no weekday is stored in any
entry or persisted record). -/
theorem claim_weekday_independence :
    (∀ t1 t2 : TmData, ∀ ss : List schedule_entry_t,
      t1.tm_hour = t2.tm_hour → t1.tm_min = t2.tm_min →
      prv_check_schedules t1 ss = prv_check_schedules t2 ss) ∧
    (∀ s : EngineState, ∀ h m si w1 w2 : Nat,
      prv_message_handler (.addSchedule h m si w1) s =
        prv_message_handler (.addSchedule h m si w2) s) := by
  constructor
  · intro t1 t2 ss h1 h2
    unfold prv_check_schedules
    rw [h1, h2]
  · intro s h m si w1 w2
    rfl

theorem claim_weekday_independence_witness :
    prv_check_schedules { tm_hour := 7, tm_min := 30, tm_wday := 1 }
        [armedEntry 7 30 12] =
      prv_check_schedules { tm_hour := 7, tm_min := 30, tm_wday := 5 }
        [armedEntry 7 30 12] :=
  claim_weekday_independence.1
    { tm_hour := 7, tm_min := 30, tm_wday := 1 }
    { tm_hour := 7, tm_min := 30, tm_wday := 5 }
    [armedEntry 7 30 12] rfl rfl

/-- **C2 (counterexample)** — The claim that a disabled engine never evaluates
regardless of delivered messages is false: in a state with
`scheduling_enabled = false` and an armed 07:30 → song 12 entry, delivering a
valid 07:30 time-sample response still evaluates and publishes Play(12). -/
theorem claim_disabled_counterexample :
    (let s : EngineState :=
      { scheduling_enabled := false,
        schedules := armedEntry 7 30 12 :: List.replicate 19 emptyEntry,
        current_time := { tm_hour := 0, tm_min := 0, tm_wday := 0 },
        time_valid := false, store := emptyStore }
    s.scheduling_enabled = false ∧
      (prv_message_handler
        (.timeResponse true { tm_hour := 7, tm_min := 30, tm_wday := 0 }) s).2 =
        [OutMsg.play 12]) := by
  decide

/-- **C2 (amended)** — While the scheduling-enabled flag is false, the
periodic tick publishes nothing (in particular no time-sample request) and
leaves the state unchanged; since time responses are produced only as replies
to the engine's own requests, no evaluation is driven by the tick. (A time
response delivered anyway is still evaluated, per the counterexample.) -/
theorem claim_disabled_no_tick_request (s : EngineState)
    (h : s.scheduling_enabled = false) :
    appcontrol_run s = (s, []) := by
  simp [appcontrol_run, h]

/-- A concrete disabled engine state, used to witness the amended C2. -/
def disabledState : EngineState :=
  { scheduling_enabled := false
    schedules := armedEntry 7 30 12 :: List.replicate 19 emptyEntry
    current_time := { tm_hour := 0, tm_min := 0, tm_wday := 0 }
    time_valid := false
    store := emptyStore }

theorem claim_disabled_no_tick_request_witness :
    appcontrol_run disabledState = (disabledState, []) :=
  claim_disabled_no_tick_request disabledState rfl

/-- **C4** — When all 20 slots are active, an Add request returns a failure
response carrying `schedule_id = -1`, leaves the whole engine state (array and
persisted store) unchanged, and a subsequent List still reports exactly 20
entries. -/
theorem claim_add_when_full (s : EngineState) (h m si w : Nat)
    (hfull : ∀ e ∈ s.schedules, e.active = true)
    (hlen : s.schedules.length = 20) :
    prv_message_handler (.addSchedule h m si w) s =
      (s, [OutMsg.scheduleResponse false (-1)]) ∧
    (prv_message_handler .listSchedules s).2 =
      [OutMsg.scheduleList 20 (listActive 0 s.schedules)] := by
  have hfree : findFree s.schedules = none :=
    findFreeAux_eq_none_of_all_active s.schedules 0 hfull
  have h20 : (listActive 0 s.schedules).length = 20 :=
    (listActive_length_of_all_active s.schedules 0 hfull).trans hlen
  constructor
  · simp [prv_message_handler, findFree] at hfree ⊢
    simp [hfree]
  · simp [prv_message_handler, h20]

/-- A fully occupied engine state (every slot active), witnessing C4. -/
def fullState : EngineState :=
  { scheduling_enabled := true
    schedules := List.replicate 20 (armedEntry 8 0 5)
    current_time := { tm_hour := 0, tm_min := 0, tm_wday := 0 }
    time_valid := false
    store := emptyStore }

theorem claim_add_when_full_witness :
    prv_message_handler (.addSchedule 1 2 3 0) fullState =
      (fullState, [OutMsg.scheduleResponse false (-1)]) ∧
    (prv_message_handler .listSchedules fullState).2 =
      [OutMsg.scheduleList 20 (listActive 0 fullState.schedules)] :=
  claim_add_when_full fullState 1 2 3 0 (by decide) (by decide)

/-- **C6** — A Remove request succeeds carrying the requested identity exactly
when the identity lies in 0..19: then that slot's active flag becomes false,
every other slot is untouched, and the resulting active set is persisted.
An out-of-range identity yields a failure response and changes neither the
array nor the store. -/
theorem claim_remove_semantics (s : EngineState) (id : Int)
    (hlen : s.schedules.length = 20) :
    (0 ≤ id ∧ id < 20 →
      (prv_message_handler (.removeSchedule id) s).2 =
        [OutMsg.scheduleResponse true id] ∧
      ((prv_message_handler (.removeSchedule id) s).1.schedules.getD
        id.toNat emptyEntry).active = false ∧
      (∀ j, j ≠ id.toNat →
        (prv_message_handler (.removeSchedule id) s).1.schedules.getD
          j emptyEntry = s.schedules.getD j emptyEntry) ∧
      (prv_message_handler (.removeSchedule id) s).1.store =
        prv_save_schedules_to_flash
          ((prv_message_handler (.removeSchedule id) s).1.schedules) s.store) ∧
    (¬(0 ≤ id ∧ id < 20) →
      prv_message_handler (.removeSchedule id) s =
        (s, [OutMsg.scheduleResponse false (-1)])) := by
  constructor
  · intro hin
    have hcond : 0 ≤ id ∧ id < (MAX_SCHEDULES : Int) := hin
    have hslot : id.toNat < s.schedules.length := by
      rw [hlen]
      have := (Int.toNat_lt' (by norm_num : (20 : Nat) ≠ 0)).mpr hin.2
      exact this
    refine ⟨?_, ?_, ?_, ?_⟩
    · simp [prv_message_handler, hcond]
    · simp only [prv_message_handler, if_pos hcond]
      simp [List.getD, List.getElem?_set_self hslot]
    · intro j hj
      simp only [prv_message_handler, if_pos hcond]
      simp [List.getD, List.getElem?_set_ne (Ne.symm hj)]
    · simp [prv_message_handler, hcond]
  · intro hout
    have hcond : ¬(0 ≤ id ∧ id < (MAX_SCHEDULES : Int)) := hout
    simp [prv_message_handler, hcond]

theorem claim_remove_semantics_witness :
    (prv_message_handler (.removeSchedule 5) fullState).2 =
      [OutMsg.scheduleResponse true 5] ∧
    prv_message_handler (.removeSchedule 25) fullState =
      (fullState, [OutMsg.scheduleResponse false (-1)]) :=
  ⟨((claim_remove_semantics fullState 5 (by decide)).1 (by decide)).1,
    (claim_remove_semantics fullState 25 (by decide)).2 (by decide)⟩

/-- **C8** — Clear always answers with a success response, deactivates every
slot, persists an active count of zero, and a subsequent restart-and-reload
(init, which loads from the persisted store) yields a state with zero active
entries (the freshly zeroed array). -/
theorem claim_clear_then_reload (s : EngineState) :
    (prv_message_handler .clearSchedules s).2 =
      [OutMsg.scheduleResponse true (-1)] ∧
    ((prv_message_handler .clearSchedules s).1.schedules.all
      fun e => !e.active) = true ∧
    (prv_message_handler .clearSchedules s).1.store.sched_cnt = 0 ∧
    (appcontrol_init (prv_message_handler .clearSchedules s).1.store).schedules
      = List.replicate MAX_SCHEDULES emptyEntry := by
  have hinact : ∀ e ∈ s.schedules.map (fun e => { e with active := false }),
      e.active = false := by
    intro e he
    rcases List.mem_map.mp he with ⟨x, _, hx⟩
    rw [← hx]
  have hnil : collectRecords 0
      (s.schedules.map (fun e => { e with active := false })) = [] :=
    (collectRecords_eq_nil_iff _ 0).mpr hinact
  refine ⟨rfl, ?_, ?_, ?_⟩
  · rw [List.all_eq_true]
    intro e he
    simp only [prv_message_handler] at he
    rw [hinact e he]
    rfl
  · simp [prv_message_handler, prv_save_schedules_to_flash, hnil]
  · simp only [prv_message_handler, appcontrol_init,
      prv_load_schedules_from_flash, prv_save_schedules_to_flash, hnil]
    norm_num

/-- **C1** — An Armed 07:30 → song 12 entry, fed the time samples
(07:29), (07:30), (07:30), (07:31), emits exactly one Play(12), on the first
07:30 sample; and in general, per delivered sample an active entry fires (with
its own song index) exactly when its hour and minute equal the sample's and it
has not already fired in that minute
(`triggered ∧ last_checked_min = current minute`). -/
theorem claim_fires_once_per_minute :
    (let s0 : EngineState :=
      { scheduling_enabled := true,
        schedules := armedEntry 7 30 12 :: List.replicate 19 emptyEntry,
        current_time := { tm_hour := 0, tm_min := 0, tm_wday := 0 },
        time_valid := false, store := emptyStore }
    let r1 := prv_message_handler
      (.timeResponse true { tm_hour := 7, tm_min := 29, tm_wday := 2 }) s0
    let r2 := prv_message_handler
      (.timeResponse true { tm_hour := 7, tm_min := 30, tm_wday := 2 }) r1.1
    let r3 := prv_message_handler
      (.timeResponse true { tm_hour := 7, tm_min := 30, tm_wday := 2 }) r2.1
    let r4 := prv_message_handler
      (.timeResponse true { tm_hour := 7, tm_min := 31, tm_wday := 2 }) r3.1
    r1.2 = [] ∧ r2.2 = [OutMsg.play 12] ∧ r3.2 = [] ∧ r4.2 = []) ∧
    (∀ h m : Nat, ∀ e : schedule_entry_t, e.active = true →
      ((checkEntry h m e).2 = some e.song_index ↔
        (e.hour = h ∧ e.minute = m ∧
          ¬(e.triggered = true ∧ e.last_checked_min = m)))) := by
  constructor
  · decide
  · intro h m e hact
    unfold checkEntry
    rw [hact]
    by_cases hl : e.last_checked_min = m
    · by_cases hc : e.hour = h ∧ e.minute = m ∧ e.triggered = false
      · simp [hl, hc]
      · simp [hl, hc]
    · by_cases hc : e.hour = h ∧ e.minute = m
      · simp [hl, hc]
      · simp [hl, hc]

theorem claim_fires_once_per_minute_witness :
    (checkEntry 7 30 (armedEntry 7 30 12)).2 = some 12 :=
  (claim_fires_once_per_minute.2 7 30 (armedEntry 7 30 12) rfl).mpr (by decide)

theorem handler_preserves_bounds (msg : InMsg) (s : EngineState)
    (hmsg : ∀ h m si w, msg = InMsg.addSchedule h m si w → h < 24 ∧ m < 60)
    (hs : ∀ e ∈ s.schedules, e.active = true → e.hour < 24 ∧ e.minute < 60) :
    ∀ e ∈ (prv_message_handler msg s).1.schedules,
      e.active = true → e.hour < 24 ∧ e.minute < 60 := by
  intro e he hact
  cases msg with
  | timeResponse v t =>
    cases v with
    | true =>
      simp only [prv_message_handler, if_true] at he
      rcases mem_checkSchedulesList _ _ s.schedules e he with ⟨x, hx, hex⟩
      have hf := checkEntry_fst_fields (t.tm_hour % 256) (t.tm_min % 256) x
      have hxact : x.active = true := by
        rw [hex] at hact
        rw [← hf.1]
        exact hact
      have hb := hs x hx hxact
      rw [hex, hf.2.1, hf.2.2.1]
      exact hb
    | false =>
      simp only [prv_message_handler, Bool.false_eq_true, if_false] at he
      exact hs e he hact
  | addSchedule h m si w =>
    simp only [prv_message_handler] at he
    cases hfree : findFree s.schedules with
    | some slot =>
      rw [hfree] at he
      rcases List.mem_or_eq_of_mem_set he with h1 | h2
      · exact hs e h1 hact
      · rw [h2]
        exact hmsg h m si w rfl
    | none =>
      rw [hfree] at he
      exact hs e he hact
  | removeSchedule id =>
    simp only [prv_message_handler] at he
    by_cases hin : 0 ≤ id ∧ id < (MAX_SCHEDULES : Int)
    · rw [if_pos hin] at he
      rcases List.mem_or_eq_of_mem_set he with h1 | h2
      · exact hs e h1 hact
      · rw [h2] at hact
        exact absurd hact (by simp)
    · rw [if_neg hin] at he
      exact hs e he hact
  | listSchedules => exact hs e he hact
  | clearSchedules =>
    simp only [prv_message_handler] at he
    rcases List.mem_map.mp he with ⟨x, _, hx⟩
    rw [← hx] at hact
    exact absurd hact (by simp)
  | setEnabled b => exact hs e he hact

theorem runMsgs_preserves_bounds (msgs : List InMsg) :
    ∀ s : EngineState,
    (∀ msg ∈ msgs, ∀ h m si w, msg = InMsg.addSchedule h m si w →
      h < 24 ∧ m < 60) →
    (∀ e ∈ s.schedules, e.active = true → e.hour < 24 ∧ e.minute < 60) →
    ∀ e ∈ (runMsgs msgs s).schedules,
      e.active = true → e.hour < 24 ∧ e.minute < 60 := by
  induction msgs with
  | nil => intro s _ hs; exact hs
  | cons msg rest ih =>
    intro s hmsgs hs
    have hstep := handler_preserves_bounds msg s
      (hmsgs msg (List.mem_cons_self msg rest)) hs
    exact ih (prv_message_handler msg s).1
      (fun m hm => hmsgs m (List.mem_cons_of_mem msg hm)) hstep

/-- **C3 (amended)** — Provided every Add request delivered carries
hour < 24 and minute < 60 (as the console guarantees) and every readable
record of the initial store is likewise in bounds, every reachable state of
the engine (init plus load-from-storage, then any sequence of delivered
messages) has hour < 24 and minute < 60 in every active entry. The engine
itself never validates, so the unqualified claim fails (see the
counterexample). -/
theorem claim_bounds_invariant (msgs : List InMsg) (store : FlashStore)
    (hmsgs : ∀ msg ∈ msgs, ∀ h m si w, msg = InMsg.addSchedule h m si w →
      h < 24 ∧ m < 60)
    (hstore : ∀ o ∈ store.records, ∀ rec : StorageRecord, o = some rec →
      rec.hour < 24 ∧ rec.minute < 60) :
    ∀ e ∈ (runMsgs msgs (appcontrol_init store)).schedules,
      e.active = true → e.hour < 24 ∧ e.minute < 60 := by
  apply runMsgs_preserves_bounds msgs (appcontrol_init store) hmsgs
  intro e he hact
  rcases mem_init_schedules store e he with h1 | ⟨rec, hmem, hg⟩
  · rw [h1] at hact
    exact absurd hact (by simp [emptyEntry])
  · have hb := hstore (some rec) hmem rec rfl
    rw [hg]
    exact hb

theorem claim_bounds_invariant_witness :
    (armedEntry 7 30 12).hour < 24 ∧ (armedEntry 7 30 12).minute < 60 := by
  refine claim_bounds_invariant [InMsg.addSchedule 7 30 12 0] emptyStore
    ?_ ?_ (armedEntry 7 30 12) (by decide) rfl
  · intro msg hm h m si w he
    rw [List.mem_singleton] at hm
    rw [hm] at he
    injection he with e1 e2 e3 e4
    constructor
    · rw [← e1]; norm_num
    · rw [← e2]; norm_num
  · intro o ho rec he
    exact absurd ho (by simp [emptyStore])

/-- **C3 (counterexample)** — The bounds invariant is not preserved by Add:
the engine never validates the requested hour/minute, so from the initial
state a single Add(hour=25, minute=77, song=1) yields a reachable state whose
slot 0 is active with hour 25 ≥ 24 and minute 77 ≥ 60. -/
theorem claim_bounds_counterexample :
    (let e := ((prv_message_handler (.addSchedule 25 77 1 0)
      (appcontrol_init emptyStore)).1.schedules.getD 0 emptyEntry)
    e.active = true ∧ 24 ≤ e.hour ∧ 60 ≤ e.minute) := by
  decide

theorem handler_preserves_trigger (msg : InMsg) (s : EngineState)
    (hmsg : ∀ v t, msg = InMsg.timeResponse v t → t.tm_min < 60)
    (hs : ∀ e ∈ s.schedules, e.active = true → e.triggered = true →
      e.last_checked_min = s.current_time.tm_min) :
    ∀ e ∈ (prv_message_handler msg s).1.schedules,
      e.active = true → e.triggered = true →
        e.last_checked_min =
          (prv_message_handler msg s).1.current_time.tm_min := by
  intro e he hact htrig
  cases msg with
  | timeResponse v t =>
    cases v with
    | true =>
      simp only [prv_message_handler, if_true] at he ⊢
      rcases mem_checkSchedulesList _ _ s.schedules e he with ⟨x, hx, hex⟩
      have hf := checkEntry_fst_fields (t.tm_hour % 256) (t.tm_min % 256) x
      have hxact : x.active = true := by
        rw [hex] at hact
        rw [← hf.1]
        exact hact
      have hlast := checkEntry_triggered_last (t.tm_hour % 256)
        (t.tm_min % 256) x hxact (by rw [← hex]; exact htrig)
      have hmin : t.tm_min % 256 = t.tm_min :=
        Nat.mod_eq_of_lt (lt_trans (hmsg true t rfl) (by norm_num))
      rw [hex, hlast, hmin]
    | false =>
      simp only [prv_message_handler, Bool.false_eq_true, if_false] at he ⊢
      exact hs e he hact htrig
  | addSchedule h m si w =>
    simp only [prv_message_handler] at he ⊢
    cases hfree : findFree s.schedules with
    | some slot =>
      rw [hfree] at he
      rcases List.mem_or_eq_of_mem_set he with h1 | h2
      · exact hs e h1 hact htrig
      · rw [h2] at htrig
        exact absurd htrig (by simp [armedEntry])
    | none =>
      rw [hfree] at he
      exact hs e he hact htrig
  | removeSchedule id =>
    simp only [prv_message_handler] at he ⊢
    by_cases hin : 0 ≤ id ∧ id < (MAX_SCHEDULES : Int)
    · rw [if_pos hin] at he ⊢
      rcases List.mem_or_eq_of_mem_set he with h1 | h2
      · exact hs e h1 hact htrig
      · rw [h2] at hact
        exact absurd hact (by simp)
    · rw [if_neg hin] at he ⊢
      exact hs e he hact htrig
  | listSchedules => exact hs e he hact htrig
  | clearSchedules =>
    simp only [prv_message_handler] at he ⊢
    rcases List.mem_map.mp he with ⟨x, _, hx⟩
    rw [← hx] at hact
    exact absurd hact (by simp)
  | setEnabled b => exact hs e he hact htrig

theorem runMsgs_preserves_trigger (msgs : List InMsg) :
    ∀ s : EngineState,
    (∀ msg ∈ msgs, ∀ v t, msg = InMsg.timeResponse v t → t.tm_min < 60) →
    (∀ e ∈ s.schedules, e.active = true → e.triggered = true →
      e.last_checked_min = s.current_time.tm_min) →
    ∀ e ∈ (runMsgs msgs s).schedules,
      e.active = true → e.triggered = true →
        e.last_checked_min = (runMsgs msgs s).current_time.tm_min := by
  induction msgs with
  | nil => intro s _ hs; exact hs
  | cons msg rest ih =>
    intro s hmsgs hs
    have hstep := handler_preserves_trigger msg s
      (hmsgs msg (List.mem_cons_self msg rest)) hs
    exact ih (prv_message_handler msg s).1
      (fun m hm => hmsgs m (List.mem_cons_of_mem msg hm)) hstep

/-- **C7** — In every reachable state (init plus load, then any delivered
messages whose time samples carry a real minute < 60), every active entry
with `triggered = true` has `last_checked_min` equal to the minute of the
most recently delivered (valid) time sample, i.e. the engine's current
minute. -/
theorem claim_triggered_implies_current_minute (msgs : List InMsg)
    (store : FlashStore)
    (htimes : ∀ msg ∈ msgs, ∀ v t, msg = InMsg.timeResponse v t →
      t.tm_min < 60) :
    ∀ e ∈ (runMsgs msgs (appcontrol_init store)).schedules,
      e.active = true → e.triggered = true →
        e.last_checked_min =
          (runMsgs msgs (appcontrol_init store)).current_time.tm_min := by
  apply runMsgs_preserves_trigger msgs (appcontrol_init store) htimes
  intro e he hact htrig
  rcases mem_init_schedules store e he with h1 | ⟨rec, _, hg⟩
  · rw [h1] at htrig
    exact absurd htrig (by simp [emptyEntry])
  · rw [hg] at htrig
    exact absurd htrig (by simp [armedEntry])

theorem claim_triggered_implies_current_minute_witness :
    ({ active := true, hour := 7, minute := 30, song_index := 12,
        triggered := true, last_checked_min := 30 } :
      schedule_entry_t).last_checked_min =
      (runMsgs [InMsg.addSchedule 7 30 12 0,
        InMsg.timeResponse true { tm_hour := 7, tm_min := 30, tm_wday := 2 }]
        (appcontrol_init emptyStore)).current_time.tm_min := by
  refine claim_triggered_implies_current_minute _ emptyStore ?_ _
    (by decide) rfl rfl
  intro msg hm v t he
  rcases List.mem_cons.mp hm with rfl | hm2
  · simp at he
  · rcases List.mem_cons.mp hm2 with rfl | hm3
    · injection he with h1 h2
      rw [← h2]
      norm_num
    · exact absurd hm3 (by simp)

/-!
## Persistence round-trip lemmas
-/

theorem getD_set_ne {α : Type} (l : List α) (i j : Nat) (a d : α)
    (h : i ≠ j) : (l.set i a).getD j d = l.getD j d := by
  simp [List.getD, List.getElem?_set_ne h]

theorem getD_set_self {α : Type} (l : List α) (i : Nat) (a d : α)
    (h : i < l.length) : (l.set i a).getD i d = a := by
  simp [List.getD, List.getElem?_set_self h]

theorem getD_append_left {α : Type} (l l' : List α) (i : Nat) (d : α)
    (h : i < l.length) : (l ++ l').getD i d = l.getD i d := by
  rw [List.getD, List.getD, List.get?_eq_getElem?, List.get?_eq_getElem?,
    List.getElem?_append_left h]

theorem collectRecords_ids (ss : List schedule_entry_t) :
    ∀ i, ∀ r ∈ collectRecords i ss,
      i ≤ r.original_id ∧ r.original_id < i + ss.length := by
  induction ss with
  | nil => intro i r hr; simp [collectRecords] at hr
  | cons e rest ih =>
    intro i r hr
    simp only [collectRecords] at hr
    by_cases he : e.active = true
    · rw [if_pos he] at hr
      rcases List.mem_cons.mp hr with h1 | h2
      · rw [h1]
        simp only [List.length_cons]
        omega
      · have := ih (i + 1) r h2
        simp only [List.length_cons]
        omega
    · rw [if_neg he] at hr
      have := ih (i + 1) r hr
      simp only [List.length_cons]
      omega

theorem collectRecords_pairwise (ss : List schedule_entry_t) :
    ∀ i, (collectRecords i ss).Pairwise
      (fun a b => a.original_id < b.original_id) := by
  induction ss with
  | nil => intro i; simp [collectRecords]
  | cons e rest ih =>
    intro i
    simp only [collectRecords]
    by_cases he : e.active = true
    · rw [if_pos he]
      refine List.Pairwise.cons ?_ (ih (i + 1))
      intro b hb
      have := collectRecords_ids rest (i + 1) b hb
      show i < b.original_id
      omega
    · rw [if_neg he]
      exact ih (i + 1)

theorem collectRecords_length_le (ss : List schedule_entry_t) :
    ∀ i, (collectRecords i ss).length ≤ ss.length := by
  induction ss with
  | nil => intro i; simp [collectRecords]
  | cons e rest ih =>
    intro i
    simp only [collectRecords, List.length_cons]
    by_cases he : e.active = true
    · rw [if_pos he]
      simp only [List.length_cons]
      exact Nat.succ_le_succ (ih (i + 1))
    · rw [if_neg he]
      exact (ih (i + 1)).trans (Nat.le_succ _)

theorem collectRecords_find? (ss : List schedule_entry_t) :
    ∀ i k, k < ss.length →
      (collectRecords i ss).find? (fun r => r.original_id == i + k) =
        (if (ss.getD k emptyEntry).active = true then
          some { hour := (ss.getD k emptyEntry).hour,
                 minute := (ss.getD k emptyEntry).minute,
                 song_index := (ss.getD k emptyEntry).song_index,
                 original_id := i + k }
        else none) := by
  induction ss with
  | nil => intro i k hk; simp at hk
  | cons e rest ih =>
    intro i k hk
    cases k with
    | zero =>
      simp only [collectRecords, List.getD_cons_zero, Nat.add_zero]
      by_cases he : e.active = true
      · rw [if_pos he, if_pos he]
        exact List.find?_cons_of_pos _ (by simp)
      · rw [if_neg he, if_neg he]
        apply List.find?_eq_none.mpr
        intro r hr
        have := collectRecords_ids rest (i + 1) r hr
        simp only [beq_iff_eq]
        omega
    | succ n =>
      have hn : n < rest.length := by
        simpa [List.length_cons, Nat.succ_lt_succ_iff] using hk
      have harith : i + (n + 1) = (i + 1) + n := by omega
      simp only [collectRecords, List.getD_cons_succ]
      by_cases he : e.active = true
      · rw [if_pos he]
        rw [List.find?_cons_of_neg _ (by simp)]
        rw [harith]
        exact ih (i + 1) n hn
      · rw [if_neg he, harith]
        exact ih (i + 1) n hn

theorem range_map_getD (recs : List StorageRecord)
    (rest : List (Option StorageRecord)) :
    (List.range recs.length).map
      (fun i => (recs.map some ++ rest).getD i none) = recs.map some := by
  apply List.ext_getElem?
  intro i
  by_cases hi : i < recs.length
  · rw [List.getElem?_map, List.getElem?_range hi]
    have hmap : i < (recs.map some).length := by
      rw [List.length_map]; exact hi
    rw [Option.map_some']
    rw [getD_append_left _ _ _ _ hmap]
    rw [List.getD_eq_getElem _ _ hmap, List.getElem?_eq_getElem hmap]
  · have h1 : (List.range recs.length).length ≤ i := by
      rw [List.length_range]; omega
    have h2 : (recs.map some).length ≤ i := by
      rw [List.length_map]; omega
    rw [List.getElem?_map, List.getElem?_eq_none h1,
      List.getElem?_eq_none h2]
    rfl

theorem loadOne_in_range (ss : List schedule_entry_t) (rec : StorageRecord)
    (h1 : rec.original_id < MAX_SCHEDULES)
    (h2 : (ss.getD rec.original_id emptyEntry).active = false) :
    loadOne ss (some rec) =
      ss.set rec.original_id
        (armedEntry rec.hour rec.minute rec.song_index) := by
  simp only [loadOne]
  have hcond : ¬(MAX_SCHEDULES ≤ rec.original_id ∨
      (ss.getD rec.original_id emptyEntry).active = true) := by
    push_neg
    exact ⟨by omega, by simp only [h2]; simp⟩
  rw [if_neg hcond]

theorem loadRecords_place (recs : List StorageRecord) :
    ∀ ss : List schedule_entry_t,
    (∀ r ∈ recs, r.original_id < MAX_SCHEDULES ∧ r.original_id < ss.length ∧
      (ss.getD r.original_id emptyEntry).active = false) →
    recs.Pairwise (fun a b => a.original_id ≠ b.original_id) →
    ∀ j, j < ss.length →
      (loadRecords (recs.map some) ss).getD j emptyEntry =
        (match recs.find? (fun r => r.original_id == j) with
         | some r => armedEntry r.hour r.minute r.song_index
         | none => ss.getD j emptyEntry) := by
  induction recs with
  | nil => intro ss _ _ j _; rfl
  | cons r rest ih =>
    intro ss hids hdist j hj
    have hr := hids r (List.mem_cons_self r rest)
    have hload := loadOne_in_range ss r hr.1 hr.2.2
    simp only [List.map_cons, loadRecords, hload]
    have hlen' : (ss.set r.original_id
        (armedEntry r.hour r.minute r.song_index)).length = ss.length := by
      simp
    have hdist' := List.pairwise_cons.mp hdist
    have hids' : ∀ x ∈ rest, x.original_id < MAX_SCHEDULES ∧
        x.original_id < (ss.set r.original_id
          (armedEntry r.hour r.minute r.song_index)).length ∧
        ((ss.set r.original_id
          (armedEntry r.hour r.minute r.song_index)).getD
            x.original_id emptyEntry).active = false := by
      intro x hx
      have hxi := hids x (List.mem_cons_of_mem r hx)
      refine ⟨hxi.1, by rw [hlen']; exact hxi.2.1, ?_⟩
      rw [getD_set_ne _ _ _ _ _ (hdist'.1 x hx)]
      exact hxi.2.2
    have hmain := ih _ hids' hdist'.2 j (by rw [hlen']; exact hj)
    rw [hmain]
    by_cases hjr : r.original_id = j
    · have hnone : rest.find? (fun x => x.original_id == j) = none := by
        apply List.find?_eq_none.mpr
        intro x hx
        have := hdist'.1 x hx
        simp only [beq_iff_eq]
        omega
      rw [hnone, List.find?_cons_of_pos _ (by simp [hjr])]
      simp only
      rw [← hjr]
      exact getD_set_self _ _ _ _ (by omega)
    · rw [List.find?_cons_of_neg _ (by simp [hjr])]
      cases hfind : rest.find? (fun x => x.original_id == j) with
      | some x => rfl
      | none =>
        simp only
        exact getD_set_ne _ _ _ _ _ hjr

theorem getD_replicate_self {α : Type} (n j : Nat) (a : α) :
    (List.replicate n a).getD j a = a := by
  induction n generalizing j with
  | zero => cases j <;> rfl
  | succ k ih =>
    cases j with
    | zero => rfl
    | succ m =>
      rw [List.replicate_succ, List.getD_cons_succ]
      exact ih m

theorem save_load_restores (ss : List schedule_entry_t) (store : FlashStore)
    (hlen : ss.length = 20) :
    (prv_load_schedules_from_flash (prv_save_schedules_to_flash ss store)
        (List.replicate 20 emptyEntry)).length = 20 ∧
    ∀ j, j < 20 →
      ((ss.getD j emptyEntry).active = true →
        (prv_load_schedules_from_flash (prv_save_schedules_to_flash ss store)
          (List.replicate 20 emptyEntry)).getD j emptyEntry =
          armedEntry (ss.getD j emptyEntry).hour (ss.getD j emptyEntry).minute
            (ss.getD j emptyEntry).song_index) ∧
      ((ss.getD j emptyEntry).active = false →
        (prv_load_schedules_from_flash (prv_save_schedules_to_flash ss store)
          (List.replicate 20 emptyEntry)).getD j emptyEntry = emptyEntry) := by
  by_cases hnil : collectRecords 0 ss = []
  · have hload : prv_load_schedules_from_flash
        (prv_save_schedules_to_flash ss store)
        (List.replicate 20 emptyEntry) = List.replicate 20 emptyEntry := by
      unfold prv_load_schedules_from_flash prv_save_schedules_to_flash
      rw [hnil]
      norm_num
    have hinact := (collectRecords_eq_nil_iff ss 0).mp hnil
    refine ⟨by rw [hload]; simp, ?_⟩
    intro j hj
    constructor
    · intro hact
      have hmem : ss.getD j emptyEntry ∈ ss := by
        rw [List.getD_eq_getElem _ _ (by omega)]
        exact List.getElem_mem _
      rw [hinact _ hmem] at hact
      cases hact
    · intro _
      rw [hload]
      exact getD_replicate_self 20 j emptyEntry
  · have hlenle : (collectRecords 0 ss).length ≤ 20 := by
      have := collectRecords_length_le ss 0
      omega
    have hposn : 0 < (collectRecords 0 ss).length := List.length_pos.mpr hnil
    have hpos : (0 : Int) < ((collectRecords 0 ss).length : Int) := by
      exact_mod_cast hposn
    have hloadeq : prv_load_schedules_from_flash
        (prv_save_schedules_to_flash ss store)
        (List.replicate 20 emptyEntry) =
        loadRecords ((collectRecords 0 ss).map some)
          (List.replicate 20 emptyEntry) := by
      unfold prv_load_schedules_from_flash prv_save_schedules_to_flash
      simp only
      rw [if_pos hpos]
      have hminval : min ((collectRecords 0 ss).length : Int).toNat
          MAX_SCHEDULES = (collectRecords 0 ss).length := by
        rw [Int.toNat_natCast]
        exact Nat.min_eq_left hlenle
      rw [hminval]
      congr 1
      have hsg : storeGet
          { sched_cnt := ((collectRecords 0 ss).length : Int),
            records := (collectRecords 0 ss).map some ++
              store.records.drop (collectRecords 0 ss).length } =
          fun i => ((collectRecords 0 ss).map some ++
            store.records.drop (collectRecords 0 ss).length).getD i none := rfl
      rw [hsg]
      exact range_map_getD _ _
    have hids : ∀ r ∈ collectRecords 0 ss,
        r.original_id < MAX_SCHEDULES ∧
        r.original_id < (List.replicate 20 emptyEntry).length ∧
        ((List.replicate 20 emptyEntry).getD r.original_id
          emptyEntry).active = false := by
      intro r hr
      have := collectRecords_ids ss 0 r hr
      refine ⟨by unfold MAX_SCHEDULES; omega, by simp; omega, ?_⟩
      rw [getD_replicate_self 20 r.original_id emptyEntry]
      rfl
    have hdist : (collectRecords 0 ss).Pairwise
        (fun a b => a.original_id ≠ b.original_id) :=
      (collectRecords_pairwise ss 0).imp (fun hlt => Nat.ne_of_lt hlt)
    refine ⟨by rw [hloadeq, loadRecords_length]; simp, ?_⟩
    intro j hj
    have hplace := loadRecords_place (collectRecords 0 ss)
      (List.replicate 20 emptyEntry) hids hdist j (by simp; omega)
    have hfind := collectRecords_find? ss 0 j (by omega)
    rw [Nat.zero_add] at hfind
    constructor
    · intro hact
      rw [hloadeq, hplace, hfind, if_pos hact]
    · intro hinactj
      have hfalse : ¬((ss.getD j emptyEntry).active = true) := by
        rw [hinactj]; simp
      rw [hloadeq, hplace, hfind, if_neg hfalse]
      exact getD_replicate_self 20 j emptyEntry

/-- **C5** — Saving the active set and reloading it into a freshly
initialized (all-empty) array restores each saved entry's hour, minute, and
song index at its original slot index (an unsaved slot reloads empty);
a record whose stored length differs from the expected record size (`none`)
is skipped without applying any field; and a record whose original slot is
out of range or already occupied is restored to the first free slot instead
(skipped when no slot is free). -/
theorem claim_save_load_roundtrip :
    (∀ ss : List schedule_entry_t, ∀ store : FlashStore, ss.length = 20 →
      (prv_load_schedules_from_flash (prv_save_schedules_to_flash ss store)
          (List.replicate 20 emptyEntry)).length = 20 ∧
      ∀ j, j < 20 →
        ((ss.getD j emptyEntry).active = true →
          (prv_load_schedules_from_flash (prv_save_schedules_to_flash ss store)
            (List.replicate 20 emptyEntry)).getD j emptyEntry =
            armedEntry (ss.getD j emptyEntry).hour
              (ss.getD j emptyEntry).minute
              (ss.getD j emptyEntry).song_index) ∧
        ((ss.getD j emptyEntry).active = false →
          (prv_load_schedules_from_flash (prv_save_schedules_to_flash ss store)
            (List.replicate 20 emptyEntry)).getD j emptyEntry = emptyEntry)) ∧
    (∀ ss : List schedule_entry_t, loadOne ss none = ss) ∧
    (∀ ss : List schedule_entry_t, ∀ rec : StorageRecord,
      MAX_SCHEDULES ≤ rec.original_id ∨
        (ss.getD rec.original_id emptyEntry).active = true →
      loadOne ss (some rec) =
        (match findFree ss with
         | some t => ss.set t (armedEntry rec.hour rec.minute rec.song_index)
         | none => ss)) := by
  refine ⟨save_load_restores, fun ss => rfl, ?_⟩
  intro ss rec h
  simp only [loadOne]
  rw [if_pos h]

/-- The persistence example of the spec: entry {hour 9, minute 0, song 3}
sitting at slot 2, all other slots free. -/
def roundtripList : List schedule_entry_t :=
  List.replicate 2 emptyEntry ++ [armedEntry 9 0 3] ++
    List.replicate 17 emptyEntry

theorem claim_save_load_roundtrip_witness :
    (prv_load_schedules_from_flash
      (prv_save_schedules_to_flash roundtripList emptyStore)
      (List.replicate 20 emptyEntry)).getD 2 emptyEntry =
      armedEntry (roundtripList.getD 2 emptyEntry).hour
        (roundtripList.getD 2 emptyEntry).minute
        (roundtripList.getD 2 emptyEntry).song_index :=
  ((claim_save_load_roundtrip.1 roundtripList emptyStore (by decide)).2
    2 (by decide)).1 (by decide)

end AirGong
